import Mathlib

/-!
# Verification of the primitive serialization layer (`src/encode.rs`)

A shallow embedding of the encode direction of the samsa wire codec.
Buffers are byte lists (`List Nat`, every entry `< 256` by construction);
each Rust `encode(&self, buffer) -> Result<()>` becomes a function from the
current buffer to an `EncResult`, which records both the outcome and the
buffer contents after the call (the Rust buffer is mutated in place, so the
error case also carries the buffer state at the point of failure).
-/

namespace Samsa

/-- Modelled from the spec: the error taxonomy of §7 (`error.rs` is not part
of the provided sources; `encode.rs` only ever constructs
`Error::EncodingError`). -/
inductive Error where
  | EncodingError
  | DecodingError
deriving DecidableEq, Repr

/-- Result of one encode call: the Rust `Result<()>` together with the final
state of the mutable output buffer. -/
inductive EncResult where
  | ok (buf : List Nat)
  | err (e : Error) (buf : List Nat)
deriving DecidableEq, Repr

/-- Model of `BufMut::put_i16` big-endian: the two bytes of the 16-bit two's
complement representation of `v`. -/
def i16Bytes (v : Int) : List Nat :=
  let u : Nat := (v % 65536).toNat
  [u / 256 % 256, u % 256]

/-- Model of `BufMut::put_i32` big-endian: the four bytes of the 32-bit two's
complement representation of `v`. -/
def i32Bytes (v : Int) : List Nat :=
  let u : Nat := (v % 4294967296).toNat
  [u / 16777216 % 256, u / 65536 % 256, u / 256 % 256, u % 256]

/-- Model of `impl ToByte for i16`: `buffer.put_i16(*self)`, always succeeds. -/
def i16Encode (v : Int) (buf : List Nat) : EncResult :=
  .ok (buf ++ i16Bytes v)

/-- Model of `impl ToByte for i32`: `buffer.put_i32(*self)`, always succeeds. -/
def i32Encode (v : Int) (buf : List Nat) : EncResult :=
  .ok (buf ++ i32Bytes v)

/-- The constant `pub const MSB: u8 = 0b1000_0000`, i.e. 128. -/
def MSB : Nat := 128

/-- Model of `fn zigzag_encode(from: usize) -> u64`, whose body is
`((from << 1) ^ (from >> 63)) as u64`; on a 64-bit host the left shift wraps modulo `2^64`. -/
def zigzagEncode (v : Nat) : Nat :=
  ((v <<< 1) % 18446744073709551616) ^^^ (v >>> 63)

/-- The emission loop of `impl ToByte for usize`:
`while n >= 0x80 { buffer.put_u8(MSB | (n as u8)); n >>= 7; }
 buffer.put_u8(n as u8)`. -/
def putVarint (n : Nat) (buf : List Nat) : List Nat :=
  if _h : 0x80 ≤ n then
    putVarint (n >>> 7) (buf ++ [MSB ||| n % 256])
  else
    buf ++ [n % 256]
termination_by n
decreasing_by
  have hdiv : n >>> 7 = n / 128 := by
    rw [Nat.shiftRight_eq_div_pow]
  omega

/-- Model of `impl ToByte for usize`: ZigZag then the base-128 loop; never fails. -/
def usizeEncode (v : Nat) (buf : List Nat) : EncResult :=
  .ok (putVarint (zigzagEncode v) buf)

/-- Model of `impl ToByte for str`: strings are their UTF-8 byte lists; the
`try_usize_to_int!(self.len(), i16)` check runs before any byte is
written, then `put_i16(l)` and the payload. -/
def strEncode (s : List Nat) (buf : List Nat) : EncResult :=
  if s.length ≤ 32767 then
    .ok (buf ++ i16Bytes s.length ++ s)
  else
    .err .EncodingError buf

/-- Model of `impl ToByte for String`: same body as the `str` impl. -/
def stringEncode (s : List Nat) (buf : List Nat) : EncResult :=
  if s.length ≤ 32767 then
    .ok (buf ++ i16Bytes s.length ++ s)
  else
    .err .EncodingError buf

/-- Model of `impl ToByte for [u8]`: `try_usize_to_int!(self.len(), i32)`, then
`put_i32(l)` and the raw bytes. -/
def bytesEncode (b : List Nat) (buf : List Nat) : EncResult :=
  if b.length ≤ 2147483647 then
    .ok (buf ++ i32Bytes b.length ++ b)
  else
    .err .EncodingError buf

/-- The element loop of `encode_as_array`: `for x in xs { f(buffer, x)?; }`. -/
def encodeElems {α : Type} (f : List Nat → α → EncResult) :
    List α → List Nat → EncResult
  | [], buf => .ok buf
  | x :: xs, buf =>
    match f buf x with
    | .ok b => encodeElems f xs b
    | .err e b => .err e b

/-- Model of `pub fn encode_as_array`: length check against `i32::MAX`, 4-byte count
prefix, then the element loop. -/
def encodeAsArray {α : Type} (f : List Nat → α → EncResult)
    (xs : List α) (buf : List Nat) : EncResult :=
  if xs.length ≤ 2147483647 then
    encodeElems f xs (buf ++ i32Bytes xs.length)
  else
    .err .EncodingError buf

/-- Model of `impl ToByte for AsStrings<T: AsRef<str>>`: every element is rendered
through `x.as_ref().encode`, i.e. through the `str` impl, whether the
element was owned or borrowed. -/
def asStringsEncode (xs : List (List Nat)) (buf : List Nat) : EncResult :=
  encodeAsArray (fun b s => strEncode s b) xs buf

/-- Model of `impl ToByte for Option<&str>`: `Some` delegates to the `str` impl,
`None` writes `(-1i32)` — four bytes. -/
def optionStrEncode (o : Option (List Nat)) (buf : List Nat) : EncResult :=
  match o with
  | some xs => strEncode xs buf
  | none => i32Encode (-1) buf

/-- Model of `impl ToByte for Option<String>`: `Some` delegates to the `String` impl,
`None` writes `(-1i16)` — two bytes. -/
def optionStringEncode (o : Option (List Nat)) (buf : List Nat) : EncResult :=
  match o with
  | some xs => stringEncode xs buf
  | none => i16Encode (-1) buf

/-- Model of `impl ToByte for Option<&[u8]>`: `None` writes `(-1i32)`. -/
def optionBytesEncode (o : Option (List Nat)) (buf : List Nat) : EncResult :=
  match o with
  | some xs => bytesEncode xs buf
  | none => i32Encode (-1) buf

/-- The i32 sentinel `-1` is four `0xff` bytes. -/
theorem i32Bytes_negOne : i32Bytes (-1) = [255, 255, 255, 255] := by decide

/-- The i16 sentinel `-1` is two `0xff` bytes. -/
theorem i16Bytes_negOne : i16Bytes (-1) = [255, 255] := by decide

/-- On a nonnegative value below `2^16`, `put_i16` writes the plain
big-endian base-256 digits. -/
theorem i16Bytes_ofNat (n : Nat) (h : n < 65536) :
    i16Bytes (n : Int) = [n / 256 % 256, n % 256] := by
  have h2 : (((n : Int)) % 65536).toNat = n := by omega
  simp only [i16Bytes, h2]

/-- On a nonnegative value below `2^32`, `put_i32` writes the plain
big-endian base-256 digits. -/
theorem i32Bytes_ofNat (n : Nat) (h : n < 4294967296) :
    i32Bytes (n : Int) =
      [n / 16777216 % 256, n / 65536 % 256, n / 256 % 256, n % 256] := by
  have h2 : (((n : Int)) % 4294967296).toNat = n := by omega
  simp only [i32Bytes, h2]

set_option maxRecDepth 8192 in
/-- Setting the continuation bit on a byte value adds 128 and leaves the low
seven bits alone. -/
theorem or128_eq : ∀ m < 256, 128 ||| m = 128 + m % 128 := by decide

/-- One unfolding of the emission loop in the `n ≥ 0x80` case. -/
theorem putVarint_step (n : Nat) (buf : List Nat) (h : 0x80 ≤ n) :
    putVarint n buf = putVarint (n >>> 7) (buf ++ [MSB ||| n % 256]) := by
  rw [putVarint.eq_def, dif_pos h]

/-- One unfolding of the emission loop in the `n < 0x80` case. -/
theorem putVarint_last (n : Nat) (buf : List Nat) (h : ¬ 0x80 ≤ n) :
    putVarint n buf = buf ++ [n % 256] := by
  rw [putVarint.eq_def, dif_neg h]

/-- The emission loop appends a nonempty little-endian base-128 digit string:
every byte except the last carries the continuation bit, the last does not,
and reading the low seven bits of each byte little-endian recovers `n`. -/
theorem putVarint_spec (n : Nat) (buf : List Nat) :
    ∃ ds, putVarint n buf = buf ++ ds ∧ ds ≠ [] ∧
      (∀ b ∈ ds.dropLast, 128 ≤ b) ∧
      (∀ l, ds.getLast? = some l → l < 128) ∧
      ds.foldr (fun b acc => acc * 128 + b % 128) 0 = n := by
  induction n, buf using putVarint.induct with
  | case1 n buf h ih =>
    obtain ⟨ds, heq, hne, hcont, hlast, hval⟩ := ih
    have hb : MSB ||| n % 256 = 128 + n % 128 := by
      rw [show MSB = 128 from rfl, or128_eq (n % 256) (Nat.mod_lt _ (by norm_num)),
        Nat.mod_mod_of_dvd n (by norm_num)]
    refine ⟨(MSB ||| n % 256) :: ds, ?_, by simp, ?_, ?_, ?_⟩
    · rw [putVarint_step n buf h, heq]
      simp
    · intro b hbmem
      rw [List.dropLast_cons_of_ne_nil hne] at hbmem
      rcases List.mem_cons.mp hbmem with hb0 | hbtail
      · omega
      · exact hcont b hbtail
    · intro l hl
      obtain ⟨c, tl, rfl⟩ := List.exists_cons_of_ne_nil hne
      rw [List.getLast?_cons_cons] at hl
      exact hlast l hl
    · have hdiv : n >>> 7 = n / 128 := by
        rw [Nat.shiftRight_eq_div_pow]
      simp only [List.foldr_cons, hval, hb]
      omega
  | case2 n buf h =>
    refine ⟨[n % 256], putVarint_last n buf h, by simp, by simp, ?_, ?_⟩
    · intro l hl
      simp only [List.getLast?_singleton, Option.some.injEq] at hl
      omega
    · simp only [List.foldr_cons, List.foldr_nil]
      omega

/-- The emission loop writes at most `k + 1` bytes when `n < 128 ^ (k + 1)`. -/
theorem putVarint_length (n : Nat) (buf : List Nat) :
    ∀ k, n < 128 ^ (k + 1) → (putVarint n buf).length ≤ buf.length + (k + 1) := by
  induction n, buf using putVarint.induct with
  | case1 n buf h ih =>
    intro k hk
    match k with
    | 0 =>
      exfalso
      rw [pow_one] at hk
      omega
    | k + 1 =>
      have hdiv : n >>> 7 = n / 128 := by
        rw [Nat.shiftRight_eq_div_pow]
      have hlt : n >>> 7 < 128 ^ (k + 1) := by
        rw [hdiv]
        have : n < 128 ^ (k + 1) * 128 := by
          rw [← pow_succ]
          exact hk
        exact Nat.div_lt_of_lt_mul (by omega)
      have := ih k hlt
      rw [putVarint_step n buf h]
      simp only [List.length_append, List.length_cons, List.length_nil] at this ⊢
      omega
  | case2 n buf h =>
    intro k hk
    rw [putVarint_last n buf h]
    simp only [List.length_append, List.length_cons, List.length_nil]
    omega

/-- ZigZag of a `usize` value fits in 64 bits. -/
theorem zigzagEncode_lt (v : Nat) (hv : v < 18446744073709551616) :
    zigzagEncode v < 18446744073709551616 := by
  have h64 : (18446744073709551616 : Nat) = 2 ^ 64 := by norm_num
  unfold zigzagEncode
  rw [h64] at hv ⊢
  refine Nat.xor_lt_two_pow (x := (v <<< 1) % 2 ^ 64) ?_ ?_
  · exact Nat.mod_lt _ (by positivity)
  · rw [Nat.shiftRight_eq_div_pow]
    exact lt_of_le_of_lt (Nat.div_le_self v _) hv

/-- The element loop with an element encoder that succeeds on every element
of the list, appending `g x` for element `x`, simply concatenates the
per-element renderings in order. -/
theorem encodeElems_pure {α : Type} (g : α → List Nat)
    (f : List Nat → α → EncResult) :
    ∀ (xs : List α), (∀ b x, x ∈ xs → f b x = .ok (b ++ g x)) →
      ∀ (buf : List Nat), encodeElems f xs buf = .ok (buf ++ xs.flatMap g)
  | [], _, buf => by simp [encodeElems]
  | x :: xs, hf, buf => by
    rw [encodeElems, hf buf x (List.mem_cons_self x xs)]
    dsimp only
    rw [encodeElems_pure g f xs
      (fun b y hy => hf b y (List.mem_cons_of_mem x hy)) (buf ++ g x)]
    simp

/-- The element loop stops at the first failing element: the elements before
it are rendered, the elements after it are never touched, and the failing
element's error and buffer state are returned unchanged. -/
theorem encodeElems_err {α : Type} (g : α → List Nat)
    (f : List Nat → α → EncResult) (e : Error) (bad : α) (post : List α) :
    ∀ (pre : List α), (∀ b x, x ∈ pre → f b x = .ok (b ++ g x)) →
      (∀ b, f b bad = .err e b) →
      ∀ buf, encodeElems f (pre ++ bad :: post) buf =
        .err e (buf ++ pre.flatMap g)
  | [], _, hbad, buf => by
    simp only [List.nil_append, encodeElems, hbad buf, List.flatMap_nil,
      List.append_nil]
  | a :: pre, hpre, hbad, buf => by
    rw [List.cons_append, encodeElems, hpre buf a (List.mem_cons_self a pre)]
    dsimp only
    rw [encodeElems_err g f e bad post pre
      (fun b x hx => hpre b x (List.mem_cons_of_mem a hx)) hbad (buf ++ g a)]
    simp

/-- C1: the claim states that encoding the absent value through either
nullable string encoder writes exactly the 2-byte sentinel `[255, 255]`.
Evaluating the borrowed-string encoder at `None` over the empty buffer shows
it writes the 4-byte sentinel `[255, 255, 255, 255]` (the source encodes
`-1i32` there), so the claim fails on the borrowed case. -/
theorem c1_optionStr_none_writes_four_bytes :
    optionStrEncode none [] = .ok [255, 255, 255, 255] ∧
      optionStrEncode none [] ≠ .ok [255, 255] := by
  constructor
  · decide
  · decide

/-- C2: the absent borrowed string is encoded as the 4-byte big-endian `-1`
sentinel `[255, 255, 255, 255]`, the absent owned string as the 2-byte one
`[255, 255]`, and the two encoders therefore append different byte
sequences to any starting buffer. -/
theorem c2_nullable_sentinel_widths_differ (buf : List Nat) :
    optionStrEncode none buf = .ok (buf ++ [255, 255, 255, 255]) ∧
      optionStringEncode none buf = .ok (buf ++ [255, 255]) ∧
      buf ++ [255, 255, 255, 255] ≠ buf ++ [255, 255] := by
  refine ⟨?_, ?_, ?_⟩
  · simp [optionStrEncode, i32Encode, i32Bytes_negOne]
  · simp [optionStringEncode, i16Encode, i16Bytes_negOne]
  · intro hcontra
    have := congrArg List.length hcontra
    simp at this

/-- C3: for any string longer than `i16::MAX = 32767` bytes, both the `str`
and the `String` encoders fail with `EncodingError` and leave the buffer
exactly as it was before the call: no partial length prefix, no payload. -/
theorem c3_strEncode_overflow (s buf : List Nat) (h : 32767 < s.length) :
    strEncode s buf = .err .EncodingError buf ∧
      stringEncode s buf = .err .EncodingError buf := by
  constructor
  · rw [strEncode, if_neg (by omega)]
  · rw [stringEncode, if_neg (by omega)]

/-- Witness for C3 at the concrete boundary string of length
`i16::MAX + 1 = 32768` and the empty starting buffer. -/
theorem c3_strEncode_overflow_witness :
    strEncode (List.replicate 32768 97) [] = .err .EncodingError [] ∧
      stringEncode (List.replicate 32768 97) [] = .err .EncodingError [] :=
  c3_strEncode_overflow (List.replicate 32768 97) []
    (by simp only [List.length_replicate]; omega)

set_option maxRecDepth 8192 in
/-- C4: for every `usize` value the varint encoder appends the ZigZag image
of the value rendered as little-endian base-128 groups of seven bits — the
continuation bit set on every byte except the final one, the low seven bits
of the bytes reassembling to the ZigZag image — and the three fixed vectors
for 11, 260 and `i64::MAX` hold byte for byte. -/
theorem c4_usizeEncode_base128 :
    (∀ v buf, ∃ ds, usizeEncode v buf = .ok (buf ++ ds) ∧ ds ≠ [] ∧
      (∀ b ∈ ds.dropLast, 128 ≤ b) ∧
      (∀ l, ds.getLast? = some l → l < 128) ∧
      ds.foldr (fun b acc => acc * 128 + b % 128) 0 = zigzagEncode v) ∧
      usizeEncode 11 [] = .ok [22] ∧
      usizeEncode 260 [] = .ok [136, 4] ∧
      usizeEncode 9223372036854775807 [] =
        .ok [254, 255, 255, 255, 255, 255, 255, 255, 255, 1] := by
  refine ⟨fun v buf => ?_, ?_, ?_, ?_⟩
  · obtain ⟨ds, heq, hne, hcont, hlast, hval⟩ :=
      putVarint_spec (zigzagEncode v) buf
    exact ⟨ds, by rw [usizeEncode, heq], hne, hcont, hlast, hval⟩
  · have hz : zigzagEncode 11 = 22 := by decide
    simp [usizeEncode, hz, putVarint, MSB]
  · have hz : zigzagEncode 260 = 520 := by decide
    simp [usizeEncode, hz, putVarint, MSB]
  · have hz : zigzagEncode 9223372036854775807 = 18446744073709551614 := by
      decide
    simp [usizeEncode, hz, putVarint, MSB]

/-- C5: for any string of length at most `i16::MAX`, both string encoders
succeed and append exactly the two big-endian bytes of the length followed
by the string's bytes verbatim, so the written prefix equals the number of
payload bytes written. -/
theorem c5_strEncode_ok (s buf : List Nat) (h : s.length ≤ 32767) :
    strEncode s buf = .ok (buf ++ [s.length / 256, s.length % 256] ++ s) ∧
      stringEncode s buf = .ok (buf ++ [s.length / 256, s.length % 256] ++ s) := by
  have hmod : s.length / 256 % 256 = s.length / 256 := by omega
  have hb : i16Bytes (s.length : Int) = [s.length / 256, s.length % 256] := by
    rw [i16Bytes_ofNat s.length (by omega), hmod]
  constructor
  · rw [strEncode, if_pos h, hb]
  · rw [stringEncode, if_pos h, hb]

/-- Witness for C5 at the string "test" and the empty starting buffer,
reproducing the fixed vector `[0, 4, 116, 101, 115, 116]`. -/
theorem c5_strEncode_ok_witness :
    strEncode [116, 101, 115, 116] [] = .ok [0, 4, 116, 101, 115, 116] ∧
      stringEncode [116, 101, 115, 116] [] = .ok [0, 4, 116, 101, 115, 116] := by
  have h := c5_strEncode_ok [116, 101, 115, 116] [] (by decide)
  simpa using h

/-- C6: when the supplied element encoder succeeds on every element of
`xs`, appending `g x` for element `x`, `encode_as_array` writes the four
big-endian bytes of the element count followed by every element's rendering
in the original order when the count fits `i32::MAX`, and fails with
`EncodingError` writing nothing when it does not; the overflow failure
holds for every element encoder, with no success hypothesis at all. -/
theorem c6_encodeAsArray_spec :
    (∀ {α : Type} (g : α → List Nat) (f : List Nat → α → EncResult)
      (xs : List α) (buf : List Nat),
      (∀ b x, x ∈ xs → f b x = .ok (b ++ g x)) →
      encodeAsArray f xs buf =
        if xs.length ≤ 2147483647 then
          .ok (buf ++ [xs.length / 16777216 % 256, xs.length / 65536 % 256,
            xs.length / 256 % 256, xs.length % 256] ++ xs.flatMap g)
        else
          .err .EncodingError buf) ∧
    (∀ {α : Type} (f : List Nat → α → EncResult)
      (xs : List α) (buf : List Nat), 2147483647 < xs.length →
      encodeAsArray f xs buf = .err .EncodingError buf) := by
  constructor
  · intro α g f xs buf hf
    rw [encodeAsArray]
    split
    · rename_i hle
      rw [encodeElems_pure g f xs hf (buf ++ i32Bytes xs.length),
        i32Bytes_ofNat xs.length (by omega)]
    · rfl
  · intro α f xs buf hlen
    rw [encodeAsArray, if_neg (by omega)]

/-- Witness for C6: the success part at a three-element list of bytes
rendered by an identity-like element encoder over the empty buffer, and the
overflow part at a list of `i32::MAX + 1` elements, where the call fails
with `EncodingError` leaving the empty buffer empty. -/
theorem c6_encodeAsArray_spec_witness :
    encodeAsArray (fun b (x : Nat) => .ok (b ++ [x])) [5, 6, 7] [] =
      .ok [0, 0, 0, 3, 5, 6, 7] ∧
    encodeAsArray (fun b (x : Nat) => .ok (b ++ [x]))
      (List.replicate 2147483648 0) [] = .err .EncodingError [] := by
  constructor
  · have h := c6_encodeAsArray_spec.1 (fun (x : Nat) => [x])
      (fun b x => .ok (b ++ [x])) [5, 6, 7] [] (fun b x hx => rfl)
    simpa using h
  · exact c6_encodeAsArray_spec.2 (fun b x => .ok (b ++ [x]))
      (List.replicate 2147483648 0) []
      (by simp only [List.length_replicate]; omega)

/-- C7: when the element encoder succeeds on every element before `bad`,
and fails on `bad` with error `e` writing nothing, `encode_as_array` stops
at `bad` — the elements after it are never rendered — and returns `e`
unchanged, while the 4-byte count prefix and the renderings of the earlier
elements remain in the buffer: the buffer is not rolled back. -/
theorem c7_encodeAsArray_err {α : Type} (g : α → List Nat)
    (f : List Nat → α → EncResult) (e : Error) (bad : α)
    (pre post : List α) (buf : List Nat)
    (hpre : ∀ b x, x ∈ pre → f b x = .ok (b ++ g x))
    (hbad : ∀ b, f b bad = .err e b)
    (hlen : (pre ++ bad :: post).length ≤ 2147483647) :
    encodeAsArray f (pre ++ bad :: post) buf =
      .err e (buf ++ i32Bytes ((pre ++ bad :: post).length : Int) ++
        pre.flatMap g) := by
  rw [encodeAsArray, if_pos hlen,
    encodeElems_err g f e bad post pre hpre hbad
      (buf ++ i32Bytes ((pre ++ bad :: post).length : Int))]

/-- Witness for C7: an array of strings whose middle element is 32768 bytes
long; the string encoder renders the first element, fails on the middle one
with `EncodingError`, and the count prefix plus the first element's bytes
remain in the buffer. -/
theorem c7_encodeAsArray_err_witness :
    encodeAsArray (fun b s => strEncode s b)
      ([[97]] ++ List.replicate 32768 97 :: [[98]]) [] =
      .err .EncodingError
        ([] ++ i32Bytes ((([[97]] ++ List.replicate 32768 97 :: [[98]]) :
            List (List Nat)).length : Int) ++
          [[97]].flatMap fun s => i16Bytes (s.length : Int) ++ s) :=
  c7_encodeAsArray_err (fun s => i16Bytes (s.length : Int) ++ s)
    (fun b s => strEncode s b) .EncodingError (List.replicate 32768 97)
    [[97]] [[98]] []
    (by
      intro b x hx
      simp only [List.mem_singleton] at hx
      subst hx
      dsimp only
      rw [strEncode, if_pos (by norm_num)]
      rw [List.append_assoc])
    (by
      intro b
      dsimp only
      rw [strEncode, if_neg (by simp only [List.length_replicate]; omega)])
    (by decide)

/-- C8: rendering the two-element sequence ["abc", "defg"] through the
`AsStrings` helper yields the fixed vector, and the bytes depend only on the
underlying string contents: the owned-`String` and the borrowed-`str`
encoders agree on every input. -/
theorem c8_asStrings_vector_and_repr_agnostic :
    asStringsEncode [[97, 98, 99], [100, 101, 102, 103]] [] =
      .ok [0, 0, 0, 2, 0, 3, 97, 98, 99, 0, 4, 100, 101, 102, 103] ∧
      ∀ s buf, stringEncode s buf = strEncode s buf :=
  ⟨by decide, fun s buf => rfl⟩

/-- C9: the byte-array encoder appends the four big-endian bytes of the
length followed by the raw bytes when the length fits `i32::MAX`, fails with
`EncodingError` writing nothing otherwise, and the fixed vector for
`[1, 2, 3]` holds. -/
theorem c9_bytesEncode_spec :
    (∀ b buf, bytesEncode b buf =
      if b.length ≤ 2147483647 then
        .ok (buf ++ [b.length / 16777216 % 256, b.length / 65536 % 256,
          b.length / 256 % 256, b.length % 256] ++ b)
      else
        .err .EncodingError buf) ∧
      bytesEncode [1, 2, 3] [] = .ok [0, 0, 0, 3, 1, 2, 3] := by
  constructor
  · intro b buf
    rw [bytesEncode]
    split
    · rename_i hle
      rw [i32Bytes_ofNat b.length (by omega)]
    · rfl
  · decide

/-- C10: the varint encoder is total and its loop stops after at most ten
emitted bytes for every 64-bit value: encoding any `usize` value succeeds
and grows the buffer by at most ten bytes. -/
theorem c10_usizeEncode_total_bounded (v : Nat) (buf : List Nat)
    (h : v < 18446744073709551616) :
    ∃ out, usizeEncode v buf = .ok out ∧ out.length ≤ buf.length + 10 := by
  refine ⟨putVarint (zigzagEncode v) buf, rfl, ?_⟩
  have hz := zigzagEncode_lt v h
  have hpow : zigzagEncode v < 128 ^ (9 + 1) := by
    calc zigzagEncode v < 18446744073709551616 := hz
    _ ≤ 128 ^ (9 + 1) := by norm_num
  simpa using putVarint_length (zigzagEncode v) buf 9 hpow

/-- Witness for C10 at the value 3 and the empty starting buffer. -/
theorem c10_usizeEncode_total_bounded_witness :
    ∃ out, usizeEncode 3 [] = .ok out ∧
      out.length ≤ List.length ([] : List Nat) + 10 :=
  c10_usizeEncode_total_bounded 3 [] (by norm_num)

end Samsa
